import Mathlib

/-!
Verification of the abstract-regular-expression library (`are/are.py`).

The development shallowly embeds the tree data model and the recursive
matcher of the library, the NFA builder `are.to_nfa`, the top-level entry
point `are.__call__`, and the inherited tuple equality of nodes, and then
settles the specification claims about them.

Conventions of the embedding:

* Symbol sequences are `List σ` for a symbol type `σ` with decidable
  equality; `string[_index]` succeeds exactly when the index is below the
  length (the `reiter` wrapper raises `StopIteration`/`IndexError` past the
  end, which every `_match` body catches where it indexes).
* A Python `Optional[int]` match result is an `Option Nat` (`none` is the
  Python `None`, i.e. "no match").
* The `while` loop of `rep._match` is the only source of non-termination in
  the library, so the matcher is modelled with an explicit fuel bound on
  loop iterations; the outer `Option` of `matchFuel`'s result is `none`
  when the fuel ran out.  `matchFuel` never consumes fuel outside the
  repetition loop, hence "the call returns `r`" is `∃ fuel, matchFuel fuel
  … = some r`, and "the call diverges" is "for every fuel the result is
  `none`".
-/

/-- Tree of abstract-regular-expression nodes, mirroring the five concrete
subclasses of `are` in `are.py`.  The Python classes `con` and `alt` accept
any number of children (`__new__(cls, *arguments)`) and store them all in
the underlying tuple, but `_match` and `to_nfa` only read `self[0]` and
`self[1]`; the constructors therefore carry the first two children plus the
list of the remaining ones.  (With fewer than two children a Python match
would raise `IndexError`; no claim involves that case.) -/
inductive are (σ : Type) where
  | nul : are σ
  | emp : are σ
  | lit (c : σ) : are σ
  | con (l r : are σ) (rest : List (are σ)) : are σ
  | alt (l r : are σ) (rest : List (are σ)) : are σ
  | rep (x : are σ) : are σ

open are

/-- The `while` loop of `rep._match` (`are.py` lines 510-516): starting from
accumulated length `lengths`, repeatedly ask `m` (the prefix-mode match of
the inner expression) at offset `i + lengths` and accumulate, stopping on
the first failure.  `fuel` bounds the number of iterations; exhaustion, or a
diverging inner call (`m` returning `none`), yields `none`. -/
def repLoopAux (m : Nat → Option (Option Nat)) : Nat → Nat → Nat → Option Nat
  | 0, _, _ => none
  | fuel + 1, i, lengths =>
    match m (i + lengths) with
    | none => none
    | some none => some lengths
    | some (some k) => repLoopAux m fuel i (lengths + k)

/-- The recursive matcher: the `_match` methods of `nul`, `emp`, `lit`,
`con`, `alt` and `rep` in `are.py`, fuelled as explained above.  Arguments
are the node, the symbol sequence, the `full` flag and `_index`; the result
is `some r` when the Python call returns `r` within `fuel` loop iterations
per repetition loop.  The trailing `emp()._match(string, full=True, _index
= i + length)` checks of the source return `0` exactly when `i + length ≥
len(string)`, and are translated that way. -/
def matchFuel [DecidableEq σ] (fuel : Nat) : are σ → List σ → Bool → Nat → Option (Option Nat)
  | .nul, _, _, _ => some none
  | .emp, s, full, i =>
    some (if i < s.length then (if full then none else some 0) else some 0)
  | .lit c, s, full, i =>
    some (match s.get? i with
          | none => none
          | some a =>
            if a = c then
              (if full then (if s.length ≤ i + 1 then some 1 else none) else some 1)
            else none)
  | .con l r _, s, full, i =>
    match matchFuel fuel l s false i with
    | none => none
    | some none => some none
    | some (some n1) =>
      match matchFuel fuel r s false (i + n1) with
      | none => none
      | some none => some none
      | some (some n2) =>
        some (if full then
                (if s.length ≤ i + (n1 + n2) then some (n1 + n2) else none)
              else some (n1 + n2))
  | .alt l r _, s, full, i =>
    match matchFuel fuel l s full i with
    | none => none
    | some none => matchFuel fuel r s full i
    | some (some n0) =>
      match matchFuel fuel r s full i with
      | none => none
      | some none =>
        some (if full then (if s.length ≤ i + n0 then some n0 else none) else some n0)
      | some (some n1) =>
        some (if full then
                (if s.length ≤ i + max n0 n1 then some (max n0 n1) else none)
              else some (max n0 n1))
  | .rep x, s, full, i =>
    match repLoopAux (fun j => matchFuel fuel x s false j) fuel i 0 with
    | none => none
    | some lengths =>
      some (if full then
              (if s.length ≤ i + lengths then some lengths else none)
            else some lengths)

/-- The call `node._match(s, full, i)` terminates and returns `r`
(`r = none` being the Python `None`, i.e. "no match"). -/
def ReturnsI [DecidableEq σ] (x : are σ) (s : List σ) (full : Bool) (i : Nat)
    (r : Option Nat) : Prop :=
  ∃ fuel, matchFuel fuel x s full i = some r

example : matchFuel 0 (con (lit 'a') (con (lit 'b') (lit 'c') []) []) "abc".toList true 0
    = some (some 3) := by decide

example : matchFuel 5 (rep (lit 'a')) "aaa".toList true 0 = some (some 3) := by decide

example : matchFuel 5 (rep (lit 'a')) "aab".toList false 0 = some (some 2) := by decide

example : matchFuel 2 (rep (lit 'a')) "aaa".toList true 0 = none := by decide

/-- A prefix-mode match of `emp` returns `0` at every offset. -/
theorem matchFuel_emp_pref [DecidableEq σ] (fuel : Nat) (s : List σ) (i : Nat) :
    matchFuel fuel (emp : are σ) s false i = some (some 0) := by
  simp only [matchFuel]
  split <;> rfl

/-- If the inner match always succeeds with length `0`, the repetition loop
never exits, whatever the fuel. -/
theorem repLoopAux_zero_none (m : Nat → Option (Option Nat))
    (hm : ∀ j, m j = some (some 0)) :
    ∀ fuel i lengths, repLoopAux m fuel i lengths = none := by
  intro fuel
  induction fuel with
  | zero => intro i lengths; rfl
  | succ fuel ih =>
    intro i lengths
    simp only [repLoopAux, hm (i + lengths)]
    exact ih i (lengths + 0)

/-- The matcher of `rep(emp())` diverges on every input, at every offset, in
both modes: the `while` loop of `rep._match` repeats forever because
`emp()._match(string, full=False, _index)` always returns `0`, which is not
`None`. -/
theorem matchFuel_rep_emp_none [DecidableEq σ] (fuel : Nat) (s : List σ)
    (full : Bool) (i : Nat) :
    matchFuel fuel (rep (emp : are σ)) s full i = none := by
  have h := repLoopAux_zero_none (fun j => matchFuel fuel (emp : are σ) s false j)
      (fun j => matchFuel_emp_pref fuel s j) fuel i 0
  simp only [matchFuel] at h ⊢
  rw [h]

/-- Step invariant for `repLoopAux`: accumulated lengths never exceed the
input length, provided every successful inner match stays in bounds. -/
theorem repLoopAux_le (m : Nat → Option (Option Nat)) (len : Nat)
    (hm : ∀ j k, j ≤ len → m j = some (some k) → j + k ≤ len) :
    ∀ fuel i lengths out, i + lengths ≤ len →
      repLoopAux m fuel i lengths = some out → i + out ≤ len := by
  intro fuel
  induction fuel with
  | zero => intro i lengths out _ h; exact absurd h (by simp [repLoopAux])
  | succ fuel ih =>
    intro i lengths out hle h
    simp only [repLoopAux] at h
    match hmj : m (i + lengths) with
    | none => rw [hmj] at h; exact absurd h (by simp)
    | some none =>
      rw [hmj] at h
      simp only [Option.some.injEq] at h
      omega
    | some (some k) =>
      rw [hmj] at h
      have hk := hm (i + lengths) k hle hmj
      exact ih i (lengths + k) out (by omega) h

/-- Upper bound: a successful match starting at an in-range offset consumes
at most the remainder of the input (spec §8, "prefix monotonicity bound"). -/
theorem matchFuel_le [DecidableEq σ] :
    ∀ (x : are σ) fuel (s : List σ) full i n, i ≤ s.length →
      matchFuel fuel x s full i = some (some n) → i + n ≤ s.length
  | .nul, fuel, s, full, i, n => by
    intro _ h
    exact absurd h (by simp [matchFuel])
  | .emp, fuel, s, full, i, n => by
    intro hi h
    simp only [matchFuel, Option.some.injEq] at h
    split at h
    · cases full with
      | false => simp at h; omega
      | true => simp at h
    · simp at h; omega
  | .lit c, fuel, s, full, i, n => by
    intro hi h
    simp only [matchFuel, Option.some.injEq] at h
    split at h
    · simp at h
    · rename_i a hg
      have hlt : i < s.length := (List.get?_eq_some.mp hg).1
      split at h
      · cases full with
        | false => simp at h; omega
        | true =>
          simp only [if_true] at h
          split at h
          · simp at h; omega
          · simp at h
      · simp at h
  | .con l r rest, fuel, s, full, i, n => by
    intro hi h
    simp only [matchFuel] at h
    split at h
    · simp at h
    · simp at h
    · rename_i n1 h1
      split at h
      · simp at h
      · simp at h
      · rename_i n2 h2
        have hn1 := matchFuel_le l fuel s false i n1 hi h1
        have hn2 := matchFuel_le r fuel s false (i + n1) n2 (by omega) h2
        simp only [Option.some.injEq] at h
        cases full with
        | false => simp at h; omega
        | true =>
          simp only [if_true] at h
          split at h
          · simp at h; omega
          · simp at h
  | .alt l r rest, fuel, s, full, i, n => by
    intro hi h
    simp only [matchFuel] at h
    split at h
    · simp at h
    · exact matchFuel_le r fuel s full i n hi h
    · rename_i n0 h1
      have hn0 := matchFuel_le l fuel s full i n0 hi h1
      split at h
      · simp at h
      · simp only [Option.some.injEq] at h
        cases full with
        | false => simp at h; omega
        | true =>
          simp only [if_true] at h
          split at h
          · simp at h; omega
          · simp at h
      · rename_i n1 h2
        have hn1 := matchFuel_le r fuel s full i n1 hi h2
        simp only [Option.some.injEq] at h
        cases full with
        | false =>
          simp at h
          have : max n0 n1 ≤ n0 ∨ max n0 n1 ≤ n1 := by omega
          omega
        | true =>
          simp only [if_true] at h
          split at h
          · simp at h
            have : max n0 n1 ≤ n0 ∨ max n0 n1 ≤ n1 := by omega
            omega
          · simp at h
  | .rep x, fuel, s, full, i, n => by
    intro hi h
    simp only [matchFuel] at h
    split at h
    · simp at h
    · rename_i lengths hL
      have hlen : i + lengths ≤ s.length := by
        refine repLoopAux_le _ s.length ?_ fuel i 0 lengths (by omega) hL
        intro j k hj hjk
        exact matchFuel_le x fuel s false j k hj hjk
      simp only [Option.some.injEq] at h
      cases full with
      | false => simp at h; omega
      | true =>
        simp only [if_true] at h
        split at h
        · simp at h; omega
        · simp at h

/-- Lower bound in full mode: a full-mode success always reaches the end of
the input (every full-mode branch of the source finishes with the
`emp()._match(..., full=True)` end-of-input check). -/
theorem matchFuel_full_ge [DecidableEq σ] :
    ∀ (x : are σ) fuel (s : List σ) i n,
      matchFuel fuel x s true i = some (some n) → s.length ≤ i + n
  | .nul, fuel, s, i, n => by
    intro h
    exact absurd h (by simp [matchFuel])
  | .emp, fuel, s, i, n => by
    intro h
    simp only [matchFuel, Option.some.injEq] at h
    split at h
    · simp at h
    · simp at h; omega
  | .lit c, fuel, s, i, n => by
    intro h
    simp only [matchFuel, Option.some.injEq] at h
    split at h
    · simp at h
    · split at h
      · simp only [if_true] at h
        split at h
        · simp at h; omega
        · simp at h
      · simp at h
  | .con l r rest, fuel, s, i, n => by
    intro h
    simp only [matchFuel] at h
    split at h
    · simp at h
    · simp at h
    · split at h
      · simp at h
      · simp at h
      · simp only [Option.some.injEq, if_true] at h
        split at h
        · simp at h; omega
        · simp at h
  | .alt l r rest, fuel, s, i, n => by
    intro h
    simp only [matchFuel] at h
    split at h
    · simp at h
    · exact matchFuel_full_ge r fuel s i n h
    · split at h
      · simp at h
      · simp only [Option.some.injEq, if_true] at h
        split at h
        · simp at h; omega
        · simp at h
      · simp only [Option.some.injEq, if_true] at h
        split at h
        · simp at h; omega
        · simp at h
  | .rep x, fuel, s, i, n => by
    intro h
    simp only [matchFuel] at h
    split at h
    · simp at h
    · simp only [Option.some.injEq, if_true] at h
      split at h
      · simp at h; omega
      · simp at h

/-- The language denoted by an abstract regular expression tree: the
standard reading of the five node kinds (spec §3).  `nul` has no
constructor, so it denotes the empty language; extra children of `con` and
`alt` beyond the first two are ignored, exactly as the matcher and the
builder ignore them. -/
inductive Lang [DecidableEq σ] : are σ → List σ → Prop where
  | empty : Lang emp []
  | litOne (c : σ) : Lang (lit c) [c]
  | conSplit {l r : are σ} {rest u v} :
      Lang l u → Lang r v → Lang (con l r rest) (u ++ v)
  | altL {l r : are σ} {rest u} : Lang l u → Lang (alt l r rest) u
  | altR {l r : are σ} {rest u} : Lang r u → Lang (alt l r rest) u
  | repNil {x : are σ} : Lang (rep x) []
  | repCons {x : are σ} {u v} :
      Lang x u → Lang (rep x) v → Lang (rep x) (u ++ v)

/-- Soundness of the repetition loop with respect to `Lang`: the
accumulated segment is a concatenation of inner matches. -/
theorem repLoopAux_sound [DecidableEq σ] (x : are σ) (s : List σ)
    (m : Nat → Option (Option Nat))
    (hm : ∀ j k, m j = some (some k) → Lang x ((s.drop j).take k)) :
    ∀ fuel i lengths out, repLoopAux m fuel i lengths = some out →
      lengths ≤ out ∧ Lang (rep x) ((s.drop (i + lengths)).take (out - lengths)) := by
  intro fuel
  induction fuel with
  | zero => intro i lengths out h; exact absurd h (by simp [repLoopAux])
  | succ fuel ih =>
    intro i lengths out h
    simp only [repLoopAux] at h
    match hmj : m (i + lengths) with
    | none => rw [hmj] at h; exact absurd h (by simp)
    | some none =>
      rw [hmj] at h
      simp only [Option.some.injEq] at h
      subst h
      exact ⟨le_refl _, by simp [Lang.repNil]⟩
    | some (some k) =>
      rw [hmj] at h
      obtain ⟨hle, hL⟩ := ih i (lengths + k) out h
      refine ⟨by omega, ?_⟩
      have hx : Lang x ((s.drop (i + lengths)).take k) := hm (i + lengths) k hmj
      have hsplit : (s.drop (i + lengths)).take (out - lengths)
          = (s.drop (i + lengths)).take k ++ ((s.drop (i + lengths)).drop k).take (out - (lengths + k)) := by
        have h1 : out - lengths = k + (out - (lengths + k)) := by omega
        rw [h1, List.take_add]
      rw [hsplit, List.drop_drop]
      have h2 : i + lengths + k = i + (lengths + k) := by omega
      rw [h2]
      exact Lang.repCons hx hL

/-- Soundness of the recursive matcher: a successful match of length `n`
starting at offset `i` means the segment of the input from `i` of length
`n` belongs to the language of the node. -/
theorem matchFuel_sound [DecidableEq σ] :
    ∀ (x : are σ) fuel (s : List σ) full i n,
      matchFuel fuel x s full i = some (some n) → Lang x ((s.drop i).take n)
  | .nul, fuel, s, full, i, n => by
    intro h
    exact absurd h (by simp [matchFuel])
  | .emp, fuel, s, full, i, n => by
    intro h
    simp only [matchFuel, Option.some.injEq] at h
    have hn : n = 0 := by
      split at h
      · cases full with
        | false => simp at h; omega
        | true => simp at h
      · simp at h; omega
    subst hn
    simp [Lang.empty]
  | .lit c, fuel, s, full, i, n => by
    intro h
    simp only [matchFuel, Option.some.injEq] at h
    split at h
    · simp at h
    · rename_i a hg
      split at h
      · rename_i hac
        subst hac
        have hn : n = 1 := by
          cases full with
          | false => simp at h; omega
          | true =>
            simp only [if_true] at h
            split at h
            · simp at h; omega
            · simp at h
        subst hn
        have hdrop : s.drop i = a :: s.drop (i + 1) := by
          have hlt : i < s.length := (List.get?_eq_some.mp hg).1
          rw [List.drop_eq_get_cons hlt]
          congr
          exact (List.get?_eq_some.mp hg).2
        rw [hdrop]
        simp [Lang.litOne]
      · simp at h
  | .con l r rest, fuel, s, full, i, n => by
    intro h
    simp only [matchFuel] at h
    split at h
    · simp at h
    · simp at h
    · rename_i n1 h1
      split at h
      · simp at h
      · simp at h
      · rename_i n2 h2
        have hn : n = n1 + n2 := by
          simp only [Option.some.injEq] at h
          cases full with
          | false => simp at h; omega
          | true =>
            simp only [if_true] at h
            split at h
            · simp at h; omega
            · simp at h
        subst hn
        have hL1 := matchFuel_sound l fuel s false i n1 h1
        have hL2 := matchFuel_sound r fuel s false (i + n1) n2 h2
        have hsplit : (s.drop i).take (n1 + n2)
            = (s.drop i).take n1 ++ ((s.drop i).drop n1).take n2 := List.take_add ..
        rw [hsplit, List.drop_drop]
        exact Lang.conSplit hL1 hL2
  | .alt l r rest, fuel, s, full, i, n => by
    intro h
    simp only [matchFuel] at h
    split at h
    · simp at h
    · exact Lang.altR (matchFuel_sound r fuel s full i n h)
    · rename_i n0 h1
      split at h
      · simp at h
      · have hn : n = n0 := by
          simp only [Option.some.injEq] at h
          cases full with
          | false => simp at h; omega
          | true =>
            simp only [if_true] at h
            split at h
            · simp at h; omega
            · simp at h
        subst hn
        exact Lang.altL (matchFuel_sound l fuel s full i n h1)
      · rename_i n1 h2
        have hn : n = max n0 n1 := by
          simp only [Option.some.injEq] at h
          cases full with
          | false => simp at h; omega
          | true =>
            simp only [if_true] at h
            split at h
            · simp at h; omega
            · simp at h
        subst hn
        rcases Nat.le_total n0 n1 with hle | hle
        · rw [Nat.max_eq_right hle]
          exact Lang.altR (matchFuel_sound r fuel s full i n1 h2)
        · rw [Nat.max_eq_left hle]
          exact Lang.altL (matchFuel_sound l fuel s full i n0 h1)
  | .rep x, fuel, s, full, i, n => by
    intro h
    simp only [matchFuel] at h
    split at h
    · simp at h
    · rename_i lengths hL
      have hn : n = lengths := by
        simp only [Option.some.injEq] at h
        cases full with
        | false => simp at h; omega
        | true =>
          simp only [if_true] at h
          split at h
          · simp at h; omega
          · simp at h
      subst hn
      have hsound := repLoopAux_sound x s (fun j => matchFuel fuel x s false j)
          (fun j k hj => matchFuel_sound x fuel s false j k hj) fuel i 0 n hL
      simpa using hsound.2

/-- The graph of automaton states assembled by `are.to_nfa`.  Python `nfa`
objects are identified by object identity; the embedding numbers them with
ids below `next`.  `epsE` lists the epsilon edges and `symE` the
symbol-labelled edges, and `acc` the accepting states: in the `nfa` package
an instance with no outgoing transitions accepts the empty string, and only
the root continuation `nfa()` (and no node allocated by the builder, nor
the negated `-nfa()`) is such an instance. -/
structure NfaGraph (σ : Type) where
  next : Nat
  epsE : List (Nat × Nat)
  symE : List (Nat × σ × Nat)
  acc : List Nat

/-- The recursive body of `are.to_nfa` (`are.py` lines 27-65): given a node
and the id of the continuation automaton (`_nfa_next`), thread the graph
through the construction and return the id of the fragment for "this node
followed by the continuation", or `none` for the unsatisfiable marker.
Mirrors the source case by case, including the order of the recursive
calls, the short-circuit of `con` when the right side is unsatisfiable, and
the mutation of the fresh `rep` state after its child is built. -/
def toNfaAux [DecidableEq σ] : are σ → Nat → NfaGraph σ → Option Nat × NfaGraph σ
  | .nul, _, g => (none, g)
  | .emp, k, g => (some k, g)
  | .lit c, k, g =>
    (some g.next,
     { g with next := g.next + 1, symE := (g.next, c, k) :: g.symE })
  | .con l r _, k, g =>
    match toNfaAux r k g with
    | (none, g1) => (none, g1)
    | (some kr, g1) => toNfaAux l kr g1
  | .alt l r _, k, g =>
    match toNfaAux l k g with
    | (lres, g1) =>
      match toNfaAux r k g1 with
      | (rres, g2) =>
        match lres, rres with
        | some ql, some qr =>
          (some g2.next,
           { g2 with next := g2.next + 1,
                     epsE := (g2.next, ql) :: (g2.next, qr) :: g2.epsE })
        | some ql, none => (some ql, g2)
        | none, some qr => (some qr, g2)
        | none, none => (none, g2)
  | .rep x, k, g =>
    let q := g.next
    let g1 : NfaGraph σ := { g with next := g.next + 1, epsE := (q, k) :: g.epsE }
    match toNfaAux x q g1 with
    | (some qa, g2) => (some q, { g2 with epsE := (q, qa) :: g2.epsE })
    | (none, g2) => (some q, g2)

/-- The root invocation `x.to_nfa()` (`are.py` lines 37-38 and 66-68):
state `0` is the freshly allocated accepting continuation `nfa()`; an
unsatisfiable root build is replaced by the canonical rejecting automaton
`-nfa()`, a fresh state with no transitions that is not accepting.  Returns
the start state together with the finished graph. -/
def toNfa [DecidableEq σ] (x : are σ) : Nat × NfaGraph σ :=
  let g0 : NfaGraph σ := ⟨1, [], [], [0]⟩
  match toNfaAux x 0 g0 with
  | (some q, g) => (q, g)
  | (none, g) => (g.next, { g with next := g.next + 1 })

/-- One expansion step of the epsilon closure: add every state reachable
from the set by a single epsilon edge. -/
def epsStep (g : NfaGraph σ) (qs : List Nat) : List Nat :=
  qs ++ ((g.epsE.filter (fun e => qs.contains e.1)).map (fun e => e.2)).filter
    (fun q => !qs.contains q)

/-- Modelled from the spec: the epsilon closure used by the external
automaton evaluator (the out-of-scope `nfa` package, spec §1/§6): iterate
single-step epsilon expansion; `g.next` iterations suffice since the graph
has `g.next` states. -/
def epsClo (g : NfaGraph σ) : Nat → List Nat → List Nat
  | 0, qs => qs
  | n + 1, qs => epsClo g n (epsStep g qs)

/-- States reachable from `qs` by reading one symbol `c`. -/
def symStep [DecidableEq σ] (g : NfaGraph σ) (qs : List Nat) (c : σ) : List Nat :=
  (g.symE.filter (fun e => qs.contains e.1 && e.2.1 = c)).map (fun e => e.2.2)

/-- Modelled from the spec: the state set reached by the external evaluator
after consuming the whole input from state set `qs` (epsilon closure before
each symbol and at the end). -/
def runNfa [DecidableEq σ] (g : NfaGraph σ) : List Nat → List σ → List Nat
  | qs, [] => epsClo g g.next qs
  | qs, c :: cs => runNfa g (symStep g (epsClo g g.next qs) c) cs

/-- Modelled from the spec: acceptance of a whole string by the automaton,
from start state `q0`. -/
def nfaAccepts [DecidableEq σ] (g : NfaGraph σ) (q0 : Nat) (s : List σ) : Bool :=
  (runNfa g [q0] s).any (fun q => g.acc.contains q)

/-- Modelled from the spec: the external automaton evaluator consumed by
`are.compile`/`are.__call__` (spec §6: "given a compiled automaton and a
symbol sequence plus mode flag, returns the same three-valued result
(length / no-match) as §4.1").  Full mode reports the whole length when the
whole string is accepted; otherwise the longest accepted prefix is
reported (spec §4.1 longest-match semantics). -/
def nfaMatch [DecidableEq σ] (g : NfaGraph σ) (q0 : Nat) (s : List σ)
    (full : Bool) : Option Nat :=
  if full then (if nfaAccepts g q0 s then some s.length else none)
  else
    (List.range (s.length + 1)).foldl
      (fun best n => if nfaAccepts g q0 (s.take n) then some n else best) none

example : nfaMatch (toNfa (con (lit 'a') (con (lit 'b') (lit 'c') []) [])).2
    (toNfa (con (lit 'a') (con (lit 'b') (lit 'c') []) [])).1
    "abc".toList true = some 3 := by decide

example : nfaMatch (toNfa (rep (lit 'a'))).2 (toNfa (rep (lit 'a'))).1
    "aa".toList true = some 2 := by decide

example : nfaMatch (toNfa (nul : are Char)).2 (toNfa (nul : are Char)).1
    [] true = none := by decide

example : nfaMatch (toNfa (con (rep (nul : are Char)) (lit 'a') [])).2
    (toNfa (con (rep (nul : are Char)) (lit 'a') [])).1 "a".toList true = some 1 := by decide

/-- A value passed to a top-level match call `r(value, full=...)`: either an
iterable of symbols or a non-iterable Python value (such as `123`). -/
inductive PyInput (σ : Type) where
  | iter (s : List σ) : PyInput σ
  | nonIter : PyInput σ

/-- The error raised by `are.__call__` for a non-iterable argument. -/
inductive PyError where
  | valueError (msg : String) : PyError

/-- The top-level entry point `are.__call__` (`are.py` lines 122-155) on an
instance without a `_compiled` attribute: validate that the argument is
iterable (raising `ValueError('input must be an iterable')` otherwise,
before any recursion), then delegate to `_match` with `full` and
`_index = 0`.  The bodies of `_match` catch `StopIteration`/`IndexError`
wherever they index the sequence, so the recursive descent itself never
raises; this is why the result for iterable input carries no error. -/
def areCall [DecidableEq σ] (fuel : Nat) (x : are σ) (v : PyInput σ)
    (full : Bool) : Except PyError (Option (Option Nat)) :=
  match v with
  | .nonIter => .error (.valueError "input must be an iterable")
  | .iter s => .ok (matchFuel fuel x s full 0)

/-! The tuple equality that `are` nodes inherit from `tuple` (`are.py` line
16; no subclass overrides `__eq__`): two nodes compare equal exactly when
their child tuples have the same length and pairwise equal elements,
regardless of the node kind.  A `lit` element is a raw symbol while the
elements of `con`, `alt` and `rep` are nodes; comparing a symbol with a
node yields `False` (the embedding assumes symbol values never compare
equal to tuples). -/
mutual

/-- Tuple equality on nodes, see the comment above. -/
def pyEq [DecidableEq σ] : are σ → are σ → Bool
  | .nul, .nul => true
  | .nul, .emp => true
  | .emp, .nul => true
  | .emp, .emp => true
  | .lit a, .lit b => decide (a = b)
  | .con l r rest, .con l2 r2 rest2 => pyEq l l2 && pyEq r r2 && pyEqList rest rest2
  | .con l r rest, .alt l2 r2 rest2 => pyEq l l2 && pyEq r r2 && pyEqList rest rest2
  | .alt l r rest, .con l2 r2 rest2 => pyEq l l2 && pyEq r r2 && pyEqList rest rest2
  | .alt l r rest, .alt l2 r2 rest2 => pyEq l l2 && pyEq r r2 && pyEqList rest rest2
  | .rep x, .rep y => pyEq x y
  | _, _ => false

def pyEqList [DecidableEq σ] : List (are σ) → List (are σ) → Bool
  | [], [] => true
  | a :: as_, b :: bs => pyEq a b && pyEqList as_ bs
  | _, _ => false

end

mutual

/-- Tuple equality is reflexive. -/
theorem pyEq_refl [DecidableEq σ] : ∀ (x : are σ), pyEq x x = true
  | .nul => rfl
  | .emp => rfl
  | .lit a => by simp [pyEq]
  | .con l r rest => by
    rw [pyEq]
    simp [pyEq_refl l, pyEq_refl r, pyEqList_refl rest]
  | .alt l r rest => by
    rw [pyEq]
    simp [pyEq_refl l, pyEq_refl r, pyEqList_refl rest]
  | .rep x => by
    rw [pyEq]
    exact pyEq_refl x

/-- Elementwise tuple equality is reflexive. -/
theorem pyEqList_refl [DecidableEq σ] : ∀ (xs : List (are σ)), pyEqList xs xs = true
  | [] => rfl
  | a :: as_ => by
    rw [pyEqList]
    simp [pyEq_refl a, pyEqList_refl as_]

end

/-- Auxiliary: a concatenation whose left side fails in prefix mode (or
diverges) yields the same verdict for the whole node, since `con._match`
returns `None` without consulting the right side. -/
theorem matchFuel_con_left_none [DecidableEq σ] (fuel : Nat) (x y : are σ)
    (rest : List (are σ)) (s : List σ) (full : Bool) (i : Nat)
    (h : matchFuel fuel x s false i = none) :
    matchFuel fuel (con x y rest) s full i = none := by
  simp only [matchFuel, h]

/-- The expression `con(alt(con(lit('a'), lit('a')), lit('a')), lit('a'))`
from the claims: its language is `{"aaa", "aa"}`, but the greedy recursive
matcher commits to the two-symbol prefix for the alternation and then
rejects `"aa"`. -/
def exGreedy : are Char :=
  con (alt (con (lit 'a') (lit 'a') []) (lit 'a') []) (lit 'a') []

/-- Claim C1: the recursive matcher and the evaluator of the compiled
automaton are claimed to agree on every tree, input and mode.  They do not:
on the expression `exGreedy` and the input `"aa"` (full mode) the recursive
matcher returns no-match, while the automaton built by `to_nfa` accepts
`"aa"` (the evaluator reports length 2). -/
theorem claim_c1_matcher_nfa_disagree :
    ReturnsI exGreedy ['a', 'a'] true 0 none ∧
    nfaMatch (toNfa exGreedy).2 (toNfa exGreedy).1 ['a', 'a'] true = some 2 :=
  ⟨⟨0, by decide⟩, by decide⟩

/-- Claim C2: matching is claimed to always terminate, with zero-length
inner matches of a repetition never looping forever.  In fact
`rep(emp())._match` never returns, on any input, at any offset, in either
mode: for every loop-iteration budget the computation is still running. -/
theorem claim_c2_rep_zero_length_loops (σ : Type) [DecidableEq σ]
    (fuel : Nat) (s : List σ) (full : Bool) (i : Nat) :
    matchFuel fuel (rep (emp : are σ)) s full i = none :=
  matchFuel_rep_emp_none fuel s full i

/-- Claim C3: `Repeat(x)` applied to the empty sequence is claimed to
succeed with length 0 for every `x`.  For `x = emp()` the call never
returns at all, in either mode: whatever the loop-iteration budget, the
computation on the empty input is still running. -/
theorem claim_c3_rep_fixpoint_fails_for_emp (fuel : Nat) (full : Bool) :
    matchFuel fuel (rep (emp : are Char)) [] full 0 = none :=
  matchFuel_rep_emp_none fuel [] full 0

/-- Claim C4, counterexample: `"aa"` is splittable as `"a" + "a"` with both
halves in the respective languages of the children of `exGreedy`, yet the
full-mode match of `exGreedy` on `"aa"` returns no-match. -/
theorem claim_c4_counterexample :
    (∃ u v, (['a', 'a'] : List Char) = u ++ v ∧
      Lang (alt (con (lit 'a') (lit 'a') []) (lit 'a') []) u ∧
      Lang (lit 'a') v) ∧
    ReturnsI exGreedy ['a', 'a'] true 0 none :=
  ⟨⟨['a'], ['a'], rfl, Lang.altR (Lang.litOne 'a'), Lang.litOne 'a'⟩, ⟨0, by decide⟩⟩

/-- Claim C4, amended: a full-mode success of `Concat(left, right)` does
imply that the input splits into a prefix in the language of `left`
followed by a suffix in the language of `right` (soundness); the converse
fails because the matcher is greedy and does not backtrack. -/
theorem claim_c4_amended [DecidableEq σ] (l r : are σ) (rest : List (are σ))
    (s : List σ) (n : Nat) (h : ReturnsI (con l r rest) s true 0 (some n)) :
    ∃ u v, s = u ++ v ∧ Lang l u ∧ Lang r v := by
  obtain ⟨fuel, hf⟩ := h
  simp only [matchFuel] at hf
  split at hf
  · simp at hf
  · simp at hf
  · rename_i n1 h1
    split at hf
    · simp at hf
    · simp at hf
    · rename_i n2 h2
      have hub1 := matchFuel_le l fuel s false 0 n1 (Nat.zero_le _) h1
      have hub2 := matchFuel_le r fuel s false (0 + n1) n2 (by omega) h2
      have hge : s.length ≤ 0 + (n1 + n2) := by
        simp only [Option.some.injEq, if_true] at hf
        split at hf
        · assumption
        · simp at hf
      refine ⟨s.take n1, s.drop n1, (List.take_append_drop n1 s).symm, ?_, ?_⟩
      · have hL := matchFuel_sound l fuel s false 0 n1 h1
        simpa using hL
      · have hL := matchFuel_sound r fuel s false (0 + n1) n2 h2
        simp only [Nat.zero_add] at hL
        have heq : (s.drop n1).take n2 = s.drop n1 := by
          have hlen2 : (s.drop n1).length = n2 := by
            rw [List.length_drop]; omega
          rw [← hlen2, List.take_length]
        rwa [heq] at hL

/-- Witness for the amended claim C4 at a concrete input. -/
theorem claim_c4_amended_witness :
    ReturnsI (con (lit 'a') (lit 'b') []) ['a', 'b'] true 0 (some 2) ∧
    ∃ u v, (['a', 'b'] : List Char) = u ++ v ∧ Lang (lit 'a') u ∧ Lang (lit 'b') v :=
  ⟨⟨0, by decide⟩,
   claim_c4_amended (lit 'a') (lit 'b') [] ['a', 'b'] 2 ⟨0, by decide⟩⟩

/-- Claim C5: a full-mode success consumes the entire input: if the match
returns length `n` then `n` is the input length, and re-matching the
consumed segment `s[:n]` in full mode returns `n` again. -/
theorem claim_c5_full_consumes_all [DecidableEq σ] (x : are σ) (s : List σ)
    (n : Nat) (h : ReturnsI x s true 0 (some n)) :
    n = s.length ∧ ReturnsI x (s.take n) true 0 (some n) := by
  obtain ⟨fuel, hf⟩ := h
  have h1 := matchFuel_le x fuel s true 0 n (Nat.zero_le _) hf
  have h2 := matchFuel_full_ge x fuel s 0 n hf
  have hn : n = s.length := by omega
  subst hn
  exact ⟨rfl, ⟨fuel, by rwa [List.take_length]⟩⟩

/-- Witness for claim C5 at a concrete input. -/
theorem claim_c5_witness :
    ReturnsI (lit 'a') ['a'] true 0 (some 1) ∧
    (1 = (['a'] : List Char).length ∧
      ReturnsI (lit 'a') ((['a'] : List Char).take 1) true 0 (some 1)) :=
  ⟨⟨0, by decide⟩, claim_c5_full_consumes_all (lit 'a') ['a'] 1 ⟨0, by decide⟩⟩

/-- Claim C6, counterexample: `Concat(x, Null)` is claimed to return
no-match on every input for every `x`; but for `x = rep(emp())` the call
on the empty input never returns anything at all (the left prefix match
diverges before `Null` is ever consulted). -/
theorem claim_c6_counterexample :
    ReturnsI (con (rep (emp : are Char)) nul []) [] true 0 none = False := by
  refine eq_false ?_
  rintro ⟨fuel, h⟩
  rw [matchFuel_con_left_none fuel _ _ _ _ _ _
    (matchFuel_rep_emp_none fuel [] false 0)] at h
  cases h

/-- Claim C6, amended: `Concat(Null, x)` always returns no-match;
`Concat(x, Null)` returns no-match whenever the prefix match of `x`
terminates (and diverges otherwise); `Alternate(Null, x)` computes exactly
the same result as `x` alone, in every mode and at every offset. -/
theorem claim_c6_amended [DecidableEq σ] (x : are σ) (rest : List (are σ))
    (s : List σ) (full : Bool) (i fuel : Nat) :
    matchFuel fuel (con nul x rest) s full i = some none ∧
    (∀ r, matchFuel fuel x s false i = some r →
      matchFuel fuel (con x nul rest) s full i = some none) ∧
    matchFuel fuel (alt nul x rest) s full i = matchFuel fuel x s full i := by
  refine ⟨?_, ?_, ?_⟩
  · simp [matchFuel]
  · intro r h
    match r with
    | none => simp [matchFuel, h]
    | some n1 => simp [matchFuel, h]
  · simp [matchFuel]

/-- Witness for the amended claim C6 at a concrete input. -/
theorem claim_c6_amended_witness :
    matchFuel 1 (con nul (lit 'a') []) ['b'] true 0 = some none ∧
    matchFuel 1 (con (lit 'a') nul []) ['b'] true 0 = some none ∧
    matchFuel 1 (alt nul (lit 'a') []) ['b'] true 0
      = matchFuel 1 (lit 'a') ['b'] true 0 :=
  ⟨(claim_c6_amended (lit 'a') [] ['b'] true 0 1).1,
   (claim_c6_amended (lit 'a') [] ['b'] true 0 1).2.1 none (by decide),
   (claim_c6_amended (lit 'a') [] ['b'] true 0 1).2.2⟩

/-- Claim C7: `Empty` in full mode succeeds (with length 0) exactly when
the offset is at or past the end of the input, and returns no-match when a
symbol remains; in prefix mode it always succeeds with length 0. -/
theorem claim_c7_emp_semantics [DecidableEq σ] (fuel : Nat) (s : List σ)
    (i : Nat) :
    matchFuel fuel (emp : are σ) s true i
      = some (if s.length ≤ i then some 0 else none) ∧
    matchFuel fuel (emp : are σ) s false i = some (some 0) := by
  constructor
  · by_cases h : i < s.length
    · have h2 : ¬ s.length ≤ i := by omega
      simp [matchFuel, h, h2]
    · have h2 : s.length ≤ i := by omega
      simp [matchFuel, h, h2]
  · exact matchFuel_emp_pref fuel s i

/-- Claim C8: a top-level call raises `ValueError` exactly for a
non-iterable argument, before any recursion; for an iterable argument the
call never raises and simply reports the `_match` verdict (with
non-acceptance as the `None` value, not an exception). -/
theorem claim_c8_input_validation [DecidableEq σ] (fuel : Nat) (x : are σ)
    (full : Bool) :
    areCall fuel x PyInput.nonIter full
      = Except.error (PyError.valueError "input must be an iterable") ∧
    ∀ s : List σ, areCall fuel x (PyInput.iter s) full
      = Except.ok (matchFuel fuel x s full 0) :=
  ⟨rfl, fun _ => rfl⟩

/-- Claim C9: the matcher inspects only the first two children of `con` and
`alt`; any further child is ignored, so a three-child node matches exactly
as the corresponding two-child node. -/
theorem claim_c9_extra_children_ignored [DecidableEq σ] (fuel : Nat)
    (x y z : are σ) (rest : List (are σ)) (s : List σ) (full : Bool) (i : Nat) :
    matchFuel fuel (con x y (z :: rest)) s full i
      = matchFuel fuel (con x y rest) s full i ∧
    matchFuel fuel (alt x y (z :: rest)) s full i
      = matchFuel fuel (alt x y rest) s full i :=
  ⟨rfl, rfl⟩

/-- Claim C10: node equality is the inherited tuple equality and ignores
the node kind: `nul() == emp()` holds, and any `con` node equals the `alt`
node with the same children. -/
theorem claim_c10_tuple_equality (σ : Type) [DecidableEq σ] :
    pyEq (nul : are σ) emp = true ∧
    ∀ (x y : are σ) (rest : List (are σ)),
      pyEq (con x y rest) (alt x y rest) = true := by
  refine ⟨rfl, fun x y rest => ?_⟩
  rw [pyEq]
  simp [pyEq_refl, pyEqList_refl]
